import Mathlib

/-!
Shallow embedding of the archive-highlight core of llm-video-toolkit
(src/modules/archive_highlight/ and the highlight command of src/main.py)
and proofs about it.

Python floats are modelled as exact rationals, Python lists as Lean lists,
and the Python set used for merged source tags as a Finset.  External
subprocess calls (ffmpeg/ffprobe) and the filesystem are modelled by
oracles collected in a World structure; subprocess.run with check=True and
Python exceptions are modelled with Except.  Python's list.sort and sorted
are stable; they are modelled by List.insertionSort with the corresponding
reflexive total key relation, which is the same stable sort.
-/

namespace VideoToolkit

/-- Origin channel of an event: the strings put into the sources list by
merge_events in highlighter.py (the tag "audio" for audio events and
"comment" for comment events). -/
inductive Source where
  | audio
  | comment
deriving DecidableEq

/-- A merged highlight event: the dict built by merge_events
(highlighter.py, lines 29-43 and 48-62) with keys time, score, sources and
type; the dict key named type is modelled by the field kind. -/
structure Event where
  time : ℚ
  score : ℚ
  sources : Finset Source
  kind : String
deriving DecidableEq

/-- An input event as consumed by merge_events: a dict with required key
time and optional keys score and type, read with e.get with defaults 1.0
and the channel name (highlighter.py, lines 29-43). -/
structure RawEvent where
  time : ℚ
  score : Option ℚ
  kind : Option String
deriving DecidableEq

/-- Key comparison for all_events.sort(key=lambda x: x['time']) in
highlighter.py line 45. -/
def timeLE (a b : Event) : Prop := a.time ≤ b.time

instance : DecidableRel timeLE := fun a b => inferInstanceAs (Decidable (a.time ≤ b.time))

instance : IsTotal Event timeLE := ⟨fun a b => le_total a.time b.time⟩

instance : IsTrans Event timeLE := ⟨fun _ _ _ h h' => le_trans h h'⟩

/-- Key comparison for sorted(merged, key=lambda x: x['score'], reverse=True)
in highlighter.py line 65: a stable sort putting larger scores first. -/
def scoreGE (a b : Event) : Prop := b.score ≤ a.score

instance : DecidableRel scoreGE := fun a b => inferInstanceAs (Decidable (b.score ≤ a.score))

instance : IsTotal Event scoreGE := ⟨fun a b => le_total b.score a.score⟩

instance : IsTrans Event scoreGE := ⟨fun _ _ _ h h' => le_trans h' h⟩

/-- Strict ascending-time comparison between merged events. -/
def timeLT (a b : Event) : Prop := a.time < b.time

instance : IsTrans Event timeLT := ⟨fun _ _ _ h h' => lt_trans h h'⟩

/-- The deterministic renderer order: descending score with ties broken by
ascending time (earlier event first). -/
def scoreTimeOrder (a b : Event) : Prop :=
  b.score < a.score ∨ (b.score = a.score ∧ a.time < b.time)

/-- Tagging of one input event done by the two loops of merge_events
(highlighter.py lines 29-43): score defaults to 1.0, sources becomes the
singleton channel tag, type defaults to the channel name. -/
def tagEvent (src : Source) (defaultKind : String) (e : RawEvent) : Event :=
  { time := e.time
    score := e.score.getD 1
    sources := {src}
    kind := e.kind.getD defaultKind }

/-- Absorption of an event e into the current merged event (highlighter.py
lines 55-60): add the score, union the source tags, and set the timestamp
to the mean of the current running-mean timestamp and the timestamp of e.
The type key of the merged dict is not touched. -/
def absorb (last e : Event) : Event :=
  { time := (last.time + e.time) / 2
    score := last.score + e.score
    sources := last.sources ∪ e.sources
    kind := last.kind }

/-- One iteration of the merge loop of merge_events (highlighter.py lines
49-62).  The accumulator is the merged list in reverse order, so its head
is merged[-1]. -/
def mergeStep (w : ℚ) (acc : List Event) (e : Event) : List Event :=
  match acc with
  | [] => [e]
  | last :: rest =>
      if e.time - last.time < w then absorb last e :: rest else e :: last :: rest

/-- The whole merge loop of merge_events over the time-sorted list
(highlighter.py lines 48-62). -/
def mergeAll (w : ℚ) (l : List Event) : List Event :=
  (l.foldl (mergeStep w) []).reverse

/-- merge_events (highlighter.py lines 10-65): tag both inputs with their
channel, sort ascending by time (stable), run the single-pass merge loop,
and return the result sorted descending by score (stable). -/
def merge_events (audio_events comment_events : List RawEvent) (merge_window : ℚ) :
    List Event :=
  let all_events :=
    audio_events.map (tagEvent Source.audio "audio") ++
      comment_events.map (tagEvent Source.comment "comment")
  List.insertionSort scoreGE (mergeAll merge_window (List.insertionSort timeLE all_events))

/-- Channel-independent observable content of a merged event: timestamp
and accumulated score.  The sources set carries the positional channel
tags (swapping the two arguments of merge_events swaps the audio/comment
labels) and the kind field only records which cluster member came first;
neither is part of cluster identity. -/
def proj (e : Event) : ℚ × ℚ := (e.time, e.score)

/-- Shadow of one merge-loop step on the proj level: the branch condition
and all updates of mergeStep other than the source union and the carried
type depend only on timestamps and scores. -/
def pstep (w : ℚ) (acc : List (ℚ × ℚ)) (q : ℚ × ℚ) : List (ℚ × ℚ) :=
  match acc with
  | [] => [q]
  | last :: rest =>
      if q.1 - last.1 < w then ((last.1 + q.1) / 2, last.2 + q.2) :: rest
      else q :: last :: rest

/-- One comment line as produced by load_comment_log (comment_analyzer.py
lines 9-46): time in seconds, text, and an optional user id (a JSON object
may omit the user key; detectors read it with c.get with a default). -/
structure CommentRecord where
  time : ℚ
  text : String
  user : Option String
deriving DecidableEq

/-- Bucket index of a comment, int(c['time'] // window_sec) in
comment_analyzer.py lines 71 and 159 (floor division). -/
def bucketOf (window_sec : ℚ) (c : CommentRecord) : ℤ := ⌊c.time / window_sec⌋

/-- Step of the insertion-ordered key set of a Python dict built by
defaultdict accumulation: a new key is appended at the end. -/
def insertKey (acc : List ℤ) (b : ℤ) : List ℤ := if b ∈ acc then acc else acc ++ [b]

/-- Keys of the buckets dict of comment_analyzer.py lines 69-72 (and
156-161), in Python dict insertion order: first occurrence order. -/
def bucketKeys (window_sec : ℚ) (comments : List CommentRecord) : List ℤ :=
  (comments.map (fun c => bucketOf window_sec c)).foldl insertKey []

/-- Number of comments falling in bucket b, the value buckets[b] of
comment_analyzer.py lines 69-72. -/
def bucketCount (window_sec : ℚ) (comments : List CommentRecord) (b : ℤ) : ℕ :=
  (comments.filter (fun c => decide (bucketOf window_sec c = b))).length

/-- Mean comments per bucket, avg_count = sum(buckets.values()) /
len(buckets) in comment_analyzer.py line 78. -/
def bucketAvg (window_sec : ℚ) (comments : List CommentRecord) : ℚ :=
  ((bucketKeys window_sec comments).map
      (fun b => (bucketCount window_sec comments b : ℚ))).sum /
    ((bucketKeys window_sec comments).length : ℚ)

/-- A comment-spike dict of comment_analyzer.py lines 84-90 (dict key type
is modelled by the field kind). -/
structure Spike where
  time : ℚ
  kind : String
  count : ℕ
  avg : ℚ
  score : ℚ
deriving DecidableEq

/-- Key comparison for sorted(spikes, key=lambda x: x['score'],
reverse=True) in comment_analyzer.py line 92. -/
def spikeGE (a b : Spike) : Prop := b.score ≤ a.score

instance : DecidableRel spikeGE := fun a b => inferInstanceAs (Decidable (b.score ≤ a.score))

instance : IsTotal Spike spikeGE := ⟨fun a b => le_total b.score a.score⟩

instance : IsTrans Spike spikeGE := ⟨fun _ _ _ h h' => le_trans h' h⟩

/-- The spike dict appended for bucket b in comment_analyzer.py lines
84-90: time is the bucket midpoint, score is count / avg. -/
def mkSpike (window_sec avg : ℚ) (count : ℕ) (b : ℤ) : Spike :=
  { time := b * window_sec + window_sec / 2
    kind := "comment_spike"
    count := count
    avg := avg
    score := (count : ℚ) / avg }

/-- detect_comment_spikes (comment_analyzer.py lines 49-92): bucket the
comments into fixed windows, flag buckets whose count strictly exceeds
avg * threshold_ratio, and return the spikes sorted descending by score. -/
def detect_comment_spikes (comments : List CommentRecord)
    (window_sec threshold_ratio : ℚ) : List Spike :=
  if comments = [] then []
  else if bucketKeys window_sec comments = [] then []
  else
    let avg := bucketAvg window_sec comments
    let spikes := (bucketKeys window_sec comments).filterMap (fun b =>
      let count := bucketCount window_sec comments b
      if avg * threshold_ratio < (count : ℚ) then some (mkSpike window_sec avg count b)
      else none)
    List.insertionSort spikeGE spikes

/-- A keyword-hit dict of comment_analyzer.py lines 126-132. -/
structure KeywordHit where
  time : ℚ
  kind : String
  keyword : String
  text : String
  score : ℚ
deriving DecidableEq

/-- The default keyword list of detect_keywords (comment_analyzer.py lines
108-119). -/
def default_keywords : List String :=
  ["草", "www", "ｗｗ", "ww",
   "神", "かみ", "カミ",
   "すご", "スゴ", "すげ", "スゲ",
   "やば", "ヤバ",
   "ワロタ", "わろた", "ワロ",
   "!?", "！？", "?!", "？！",
   "えぇ", "ええ", "えー",
   "うわ", "ウワ",
   "きた", "キタ", "kita",
   "888", "パチパチ", "ぱちぱち"]

/-- Python's str.lower(), modelled characterwise (String.toLower of core
Lean is defined by well-founded recursion and does not reduce; this
structural version agrees with it and with Python on the ASCII data the
code compares). -/
def pyLower (s : String) : String := ⟨s.data.map Char.toLower⟩

/-- The Python substring test kw.lower() in text.lower() of
comment_analyzer.py line 125, modelled on character lists. -/
def keywordMatches (kw text : String) : Bool :=
  decide ((pyLower kw).data <:+: (pyLower text).data)

/-- detect_keywords (comment_analyzer.py lines 95-135): at most one hit per
comment, for the first keyword (in list order) contained in its text,
with fixed score 0.5. -/
def detect_keywords (comments : List CommentRecord) (keywords : List String) :
    List KeywordHit :=
  comments.filterMap (fun c =>
    (keywords.find? (fun kw => keywordMatches kw c.text)).map (fun kw =>
      { time := c.time, kind := "keyword_hit", keyword := kw, text := c.text,
        score := 1 / 2 }))

/-- A user-reaction dict of comment_analyzer.py lines 166-171. -/
structure Reaction where
  time : ℚ
  kind : String
  unique_users : ℕ
  score : ℚ
deriving DecidableEq

/-- Key comparison for sorted(reactions, key=lambda x: x['score'],
reverse=True) in comment_analyzer.py line 173. -/
def reactionGE (a b : Reaction) : Prop := b.score ≤ a.score

instance : DecidableRel reactionGE :=
  fun a b => inferInstanceAs (Decidable (b.score ≤ a.score))

instance : IsTotal Reaction reactionGE := ⟨fun a b => le_total b.score a.score⟩

instance : IsTrans Reaction reactionGE := ⟨fun _ _ _ h h' => le_trans h' h⟩

/-- Distinct users (with c.get('user', 'anonymous')) commenting in bucket b,
the set buckets[b] of comment_analyzer.py lines 156-161. -/
def uniqueUsers (window_sec : ℚ) (comments : List CommentRecord) (b : ℤ) : ℕ :=
  (((comments.filter (fun c => decide (bucketOf window_sec c = b))).map
      (fun c => c.user.getD "anonymous")).toFinset).card

/-- detect_user_reactions (comment_analyzer.py lines 138-173): buckets with
at least min_unique_users distinct users become events at the bucket
midpoint with score unique_count / threshold, sorted descending by score. -/
def detect_user_reactions (comments : List CommentRecord) (window_sec : ℚ)
    (min_unique_users : ℕ) : List Reaction :=
  if comments = [] then []
  else
    let reactions := (bucketKeys window_sec comments).filterMap (fun b =>
      let users := uniqueUsers window_sec comments b
      if min_unique_users ≤ users then
        some { time := b * window_sec + window_sec / 2, kind := "user_reaction",
               unique_users := users, score := (users : ℚ) / (min_unique_users : ℚ) }
      else none)
    List.insertionSort reactionGE reactions

/-- View of a spike dict as a merge_events input (keys time, score, type). -/
def Spike.toRaw (s : Spike) : RawEvent := ⟨s.time, some s.score, some s.kind⟩

/-- View of a reaction dict as a merge_events input. -/
def Reaction.toRaw (r : Reaction) : RawEvent := ⟨r.time, some r.score, some r.kind⟩

/-- View of a keyword-hit dict as a merge_events input. -/
def KeywordHit.toRaw (k : KeywordHit) : RawEvent := ⟨k.time, some k.score, some k.kind⟩

/-- Key comparison for sorted(events, key=lambda x: x.get('score', 0),
reverse=True) in comment_analyzer.py line 198. -/
def rawScoreGE (a b : RawEvent) : Prop := b.score.getD 0 ≤ a.score.getD 0

instance : DecidableRel rawScoreGE :=
  fun a b => inferInstanceAs (Decidable (b.score.getD 0 ≤ a.score.getD 0))

instance : IsTotal RawEvent rawScoreGE := ⟨fun a b => le_total (b.score.getD 0) (a.score.getD 0)⟩

instance : IsTrans RawEvent rawScoreGE := ⟨fun _ _ _ h h' => le_trans h' h⟩

/-- Key comparison for sorted(events, key=lambda x: x['time']) in
audio_analyzer.py line 154. -/
def rawTimeLE (a b : RawEvent) : Prop := a.time ≤ b.time

instance : DecidableRel rawTimeLE := fun a b => inferInstanceAs (Decidable (a.time ≤ b.time))

instance : IsTotal RawEvent rawTimeLE := ⟨fun a b => le_total a.time b.time⟩

instance : IsTrans RawEvent rawTimeLE := ⟨fun _ _ _ h h' => le_trans h h'⟩

/-- A Python exception escaping the highlight pipeline:
subprocess.CalledProcessError from subprocess.run(..., check=True) (the
payload names the external tool), or ValueError (raised by
load_comment_log for an unsupported extension). -/
inductive PyError where
  | calledProcessError : String → PyError
  | valueError : String → PyError
deriving DecidableEq

/-- Oracles for the external world of one extract_highlights run: exit
status and parsed diagnostic output of each ffmpeg/ffprobe invocation, and
the comment-log file.  commentLogSuffix is Path(log_path).suffix;
commentData is the parsed content of a well-formed JSON/CSV log (the json
and csv modules are outside the embedding). -/
structure World where
  extractAudioOk : Bool
  silenceEndTimes : List ℚ
  loudness : Option ℚ
  loudSilenceStarts : List ℚ
  loudSilenceEnds : List ℚ
  commentLogExists : Bool
  commentLogSuffix : String
  commentData : List CommentRecord
  probeOk : Bool
  videoDuration : ℚ
  cutOk : ℕ → Bool

/-- extract_audio (audio_analyzer.py lines 7-16): subprocess.run with
check=True raises CalledProcessError on a nonzero ffmpeg exit. -/
def extract_audio (w : World) : Except PyError Unit :=
  if w.extractAudioOk then Except.ok () else Except.error (PyError.calledProcessError "ffmpeg")

/-- A volume-peak dict of audio_analyzer.py lines 48-51. -/
structure Peak where
  time : ℚ
  kind : String
deriving DecidableEq

/-- detect_volume_peaks (audio_analyzer.py lines 19-53): subprocess.run
without check never raises; each silence_end match becomes a peak.  A
failed run has empty stderr and so yields the empty list. -/
def detect_volume_peaks (w : World) : List Peak :=
  w.silenceEndTimes.map (fun t => ⟨t, "volume_peak"⟩)

/-- A loud-segment dict of audio_analyzer.py lines 113-119 (dict keys
start and end are modelled by segStart and segEnd). -/
structure LoudSegment where
  time : ℚ
  kind : String
  segStart : ℚ
  segEnd : ℚ
  duration : ℚ
deriving DecidableEq

/-- The pairing loop of detect_loud_segments (audio_analyzer.py lines
109-121): walk the silence_start list, emit the gap before each start when
it is longer than min_duration, and advance prev_end through the
silence_end list in step. -/
def loudSegmentsGo (min_duration : ℚ) : ℚ → List ℚ → List ℚ → List LoudSegment
  | _, [], _ => []
  | prev_end, s :: starts, ends =>
      (if min_duration < s - prev_end then
          [⟨prev_end + (s - prev_end) / 2, "loud_segment", prev_end, s, s - prev_end⟩]
        else []) ++
        match ends with
        | [] => loudSegmentsGo min_duration prev_end starts []
        | e :: rest => loudSegmentsGo min_duration e starts rest

/-- detect_loud_segments (audio_analyzer.py lines 56-123): if no Integrated
loudness summary is found in the ebur128 output, return []; otherwise pair
the -30dB silencedetect boundaries into loud segments. -/
def detect_loud_segments (w : World) (min_duration : ℚ) : List LoudSegment :=
  match w.loudness with
  | none => []
  | some _ => loudSegmentsGo min_duration 0 w.loudSilenceStarts w.loudSilenceEnds

/-- analyze_audio (audio_analyzer.py lines 126-154): extract audio (fatal
on failure, nothing catches it), detect peaks (score 1.0) and loud
segments (score 2.0), and return all events sorted ascending by time. -/
def analyze_audio (w : World) : Except PyError (List RawEvent) :=
  match extract_audio w with
  | Except.error e => Except.error e
  | Except.ok _ =>
      let peaks := detect_volume_peaks w
      let loud := detect_loud_segments w 1
      let events :=
        peaks.map (fun p => (⟨p.time, some 1, some p.kind⟩ : RawEvent)) ++
          loud.map (fun l => (⟨l.time, some 2, some l.kind⟩ : RawEvent))
      Except.ok (List.insertionSort rawTimeLE events)

/-- load_comment_log (comment_analyzer.py lines 9-46): dispatch on the
lower-cased path suffix; .json and .csv are parsed (the parsed records
are the commentData oracle), any other suffix raises
ValueError("Unsupported format: ..."). -/
def load_comment_log (w : World) : Except PyError (List CommentRecord) :=
  if pyLower w.commentLogSuffix = ".json" then Except.ok w.commentData
  else if pyLower w.commentLogSuffix = ".csv" then Except.ok w.commentData
  else Except.error (PyError.valueError ("Unsupported format: " ++ w.commentLogSuffix))

/-- analyze_comments (comment_analyzer.py lines 176-198): load the log
(exceptions propagate), run the three detectors, keep the top 10 spikes,
top 10 reactions and top 20 keyword hits, and sort the concatenation
descending by score. -/
def analyze_comments (w : World) : Except PyError (List RawEvent) :=
  match load_comment_log w with
  | Except.error e => Except.error e
  | Except.ok comments =>
      let spikes := detect_comment_spikes comments 30 2
      let keywords := detect_keywords comments default_keywords
      let reactions := detect_user_reactions comments 10 5
      let events :=
        (spikes.take 10).map Spike.toRaw ++ (reactions.take 10).map Reaction.toRaw ++
          (keywords.take 20).map KeywordHit.toRaw
      Except.ok (List.insertionSort rawScoreGE events)

/-- get_video_duration (highlighter.py lines 68-77): ffprobe with
check=True; the parsed duration is the videoDuration oracle. -/
def get_video_duration (w : World) : Except PyError ℚ :=
  if w.probeOk then Except.ok w.videoDuration else Except.error (PyError.calledProcessError "ffprobe")

/-- A produced clip (highlighter.py lines 104-126): the 1-based index and
the cut window.  The output path embeds index, timestamp and score
bijectively with this data; its string formatting is abstracted away. -/
structure Clip where
  index : ℕ
  start : ℚ
  duration : ℚ
deriving DecidableEq

/-- Clip start, start = max(0, center - clip_duration / 2 - padding)
(highlighter.py line 107). -/
def clipStart (clip_duration padding center : ℚ) : ℚ :=
  max 0 (center - clip_duration / 2 - padding)

/-- The clip cut for the event at 0-based enumeration index i
(highlighter.py lines 104-113): duration = min(clip_duration + padding * 2,
video_duration - start). -/
def clipFor (video_duration clip_duration padding : ℚ) (i : ℕ) (e : Event) : Clip :=
  { index := i + 1
    start := clipStart clip_duration padding e.time
    duration := min (clip_duration + padding * 2)
      (video_duration - clipStart clip_duration padding e.time) }

/-- The clip loop of generate_clips (highlighter.py lines 104-131) over the
top num_clips events: the ffmpeg cut of the clip at enumeration index i
succeeds iff cutOk i; on CalledProcessError the clip is skipped and the
loop continues. -/
def clipWindows (video_duration : ℚ) (events : List Event) (num_clips : ℕ)
    (clip_duration padding : ℚ) (cutOk : ℕ → Bool) : List Clip :=
  ((events.take num_clips).enum).filterMap (fun p =>
    if cutOk p.1 then some (clipFor video_duration clip_duration padding p.1 p.2) else none)

/-- generate_clips (highlighter.py lines 80-131): query the media duration
once (fatal on failure), then cut the top events, skipping per-clip
failures. -/
def generate_clips (w : World) (events : List Event) (num_clips : ℕ)
    (clip_duration padding : ℚ) : Except PyError (List Clip) :=
  match get_video_duration w with
  | Except.error e => Except.error e
  | Except.ok d => Except.ok (clipWindows d events num_clips clip_duration padding w.cutOk)

/-- The result dict of extract_highlights (highlighter.py lines 221-225);
the timestamp list file content is abstracted to its path. -/
structure HighlightResult where
  clips : List Clip
  timestamps : String
  events : List Event
deriving DecidableEq

/-- extract_highlights (highlighter.py lines 171-225): analyze audio (no
try/except around it), analyze comments only when a comment log path is
given (truthy) and the file exists, merge with the default 30 s window,
and cut clips with default padding 5.  Any exception from the called
functions propagates to the caller (main.py catches it, prints the error
and exits with status 1). -/
def extract_highlights (w : World) (output_dir : String) (comment_log : Option String)
    (num_clips : ℕ) (clip_duration : ℚ) : Except PyError HighlightResult :=
  match analyze_audio w with
  | Except.error e => Except.error e
  | Except.ok audio_events =>
      let commentRes : Except PyError (List RawEvent) :=
        match comment_log with
        | some s => if s ≠ "" ∧ w.commentLogExists then analyze_comments w else Except.ok []
        | none => Except.ok []
      match commentRes with
      | Except.error e => Except.error e
      | Except.ok comment_events =>
          let events := merge_events audio_events comment_events 30
          match generate_clips w events num_clips clip_duration 5 with
          | Except.error e => Except.error e
          | Except.ok clips =>
              Except.ok { clips := clips
                          timestamps := output_dir ++ "/timestamps.txt"
                          events := events }

/-- Test fixture: a world where the initial ffmpeg audio extraction fails
and everything else is healthy (comment log present and well-formed, probe
and cuts fine). -/
def wAudioFail : World :=
  { extractAudioOk := false
    silenceEndTimes := [5]
    loudness := none
    loudSilenceStarts := []
    loudSilenceEnds := []
    commentLogExists := true
    commentLogSuffix := ".json"
    commentData := [⟨10, "草", some "u1"⟩]
    probeOk := true
    videoDuration := 100
    cutOk := fun _ => true }

/-- Test fixture: a healthy world whose comment log has the unsupported
extension .txt. -/
def wBadSuffix : World :=
  { extractAudioOk := true
    silenceEndTimes := []
    loudness := none
    loudSilenceStarts := []
    loudSilenceEnds := []
    commentLogExists := true
    commentLogSuffix := ".txt"
    commentData := []
    probeOk := true
    videoDuration := 100
    cutOk := fun _ => true }

/-- Test fixture: a healthy world for clip generation in which exactly the
ffmpeg cut of enumeration index 1 (clip 2 of the batch) exits nonzero. -/
def wClip2Fails : World :=
  { extractAudioOk := true
    silenceEndTimes := []
    loudness := none
    loudSilenceStarts := []
    loudSilenceEnds := []
    commentLogExists := false
    commentLogSuffix := ""
    commentData := []
    probeOk := true
    videoDuration := 300
    cutOk := fun i => decide (i ≠ 1) }

/-- Test fixture for spike detection: ten 30 s buckets holding one comment
each (times 30i+1 for i=0..9) and an eleventh bucket (i=10) holding five
comments; mean is 15/11. -/
def scenarioA : List CommentRecord :=
  [⟨1, "a", some "u"⟩, ⟨31, "a", some "u"⟩, ⟨61, "a", some "u"⟩, ⟨91, "a", some "u"⟩,
   ⟨121, "a", some "u"⟩, ⟨151, "a", some "u"⟩, ⟨181, "a", some "u"⟩, ⟨211, "a", some "u"⟩,
   ⟨241, "a", some "u"⟩, ⟨271, "a", some "u"⟩,
   ⟨301, "a", some "u"⟩, ⟨302, "a", some "u"⟩, ⟨303, "a", some "u"⟩, ⟨304, "a", some "u"⟩,
   ⟨305, "a", some "u"⟩]

/-- Test fixture: scenarioA with one extra bucket (i=11) of two comments;
mean is 17/12. -/
def scenarioB : List CommentRecord :=
  scenarioA ++ [⟨331, "a", some "u"⟩, ⟨332, "a", some "u"⟩]

/-- Test fixture: five score-ranked events as fed to the clip renderer. -/
def ev5 : List Event :=
  [⟨10, 5, {Source.audio}, "audio"⟩,
   ⟨50, 4, {Source.audio}, "audio"⟩,
   ⟨90, 3, {Source.comment}, "comment"⟩,
   ⟨130, 2, {Source.audio}, "audio"⟩,
   ⟨170, 1, {Source.comment}, "comment"⟩]

/-! Helper lemmas. -/

/-- Tagging a bare input event evaluates to the literal Event record. -/
theorem tagEvent_eval (src : Source) (dk : String) (t s : ℚ) :
    tagEvent src dk ⟨t, some s, none⟩ = ⟨t, s, {src}, dk⟩ := rfl

/-- Union of the two singleton channel tags. -/
theorem union_audio_comment :
    ({Source.audio} : Finset Source) ∪ {Source.comment} = {Source.audio, Source.comment} := by
  decide

/-- Absorption step of the merge loop, explicitly. -/
theorem mergeStep_absorb (w : ℚ) (last e : Event) (acc : List Event)
    (h : e.time - last.time < w) :
    mergeStep w (last :: acc) e = absorb last e :: acc := by
  simp [mergeStep, h]

/-- Non-absorption step of the merge loop, explicitly. -/
theorem mergeStep_new (w : ℚ) (last e : Event) (acc : List Event)
    (h : w ≤ e.time - last.time) :
    mergeStep w (last :: acc) e = e :: last :: acc := by
  simp [mergeStep, not_lt.mpr h]

/-- When every consecutive gap in the list is at least the window, the merge
loop never absorbs anything. -/
theorem foldl_mergeStep_spread (w : ℚ) :
    ∀ (l : List Event) (last : Event) (acc : List Event),
      (last :: l).Chain' (fun a b => w ≤ b.time - a.time) →
      l.foldl (mergeStep w) (last :: acc) = l.reverse ++ last :: acc := by
  intro l
  induction l with
  | nil => intro last acc _; rfl
  | cons e l ih =>
      intro last acc hc
      have h1 : w ≤ e.time - last.time := (List.chain'_cons.mp hc).1
      have h2 : (e :: l).Chain' (fun a b => w ≤ b.time - a.time) :=
        (List.chain'_cons.mp hc).2
      calc (e :: l).foldl (mergeStep w) (last :: acc)
          = l.foldl (mergeStep w) (e :: last :: acc) := by
            rw [List.foldl_cons, mergeStep_new w last e acc h1]
        _ = l.reverse ++ e :: last :: acc := ih e (last :: acc) h2
        _ = (e :: l).reverse ++ last :: acc := by simp

/-- mergeAll is the identity on lists whose consecutive gaps all reach the
window. -/
theorem mergeAll_of_spread (w : ℚ) (l : List Event)
    (h : l.Chain' (fun a b => w ≤ b.time - a.time)) : mergeAll w l = l := by
  cases l with
  | nil => rfl
  | cons e l =>
      have : (e :: l).foldl (mergeStep w) [] = l.foldl (mergeStep w) [e] := by
        rw [List.foldl_cons]; rfl
      rw [mergeAll, this, foldl_mergeStep_spread w l e [] h]
      simp

/-- Evaluation of merge_events on one audio and one comment event that fall
within the window (the audio event not later than the comment event). -/
theorem merge_two_absorb (w t1 t2 s1 s2 : ℚ) (h12 : t1 ≤ t2) (hw : t2 - t1 < w) :
    merge_events [⟨t1, some s1, none⟩] [⟨t2, some s2, none⟩] w =
      [⟨(t1 + t2) / 2, s1 + s2, {Source.audio, Source.comment}, "audio"⟩] := by
  have hA : timeLE (⟨t1, s1, {Source.audio}, "audio"⟩ : Event)
      ⟨t2, s2, {Source.comment}, "comment"⟩ := h12
  simp only [merge_events, List.map_cons, List.map_nil, tagEvent_eval,
    List.singleton_append, List.insertionSort, List.orderedInsert, if_pos hA,
    mergeAll, List.foldl, mergeStep, sub_zero]
  rw [if_pos (show (⟨t2, s2, {Source.comment}, "comment"⟩ : Event).time -
      (⟨t1, s1, {Source.audio}, "audio"⟩ : Event).time < w from hw)]
  simp [absorb, union_audio_comment]

/-- Evaluation of merge_events on one audio and one comment event separated
by at least the window: they stay separate (up to the final score sort). -/
theorem merge_two_separate (w t1 t2 s1 s2 : ℚ) (h12 : t1 ≤ t2) (hw : w ≤ t2 - t1) :
    (merge_events [⟨t1, some s1, none⟩] [⟨t2, some s2, none⟩] w).Perm
      [⟨t1, s1, {Source.audio}, "audio"⟩, ⟨t2, s2, {Source.comment}, "comment"⟩] := by
  have hA : timeLE (⟨t1, s1, {Source.audio}, "audio"⟩ : Event)
      ⟨t2, s2, {Source.comment}, "comment"⟩ := h12
  have hstep : mergeStep w [⟨t1, s1, {Source.audio}, "audio"⟩]
      ⟨t2, s2, {Source.comment}, "comment"⟩ =
      [⟨t2, s2, {Source.comment}, "comment"⟩, ⟨t1, s1, {Source.audio}, "audio"⟩] :=
    mergeStep_new w _ _ [] hw
  simp only [merge_events, List.map_cons, List.map_nil, tagEvent_eval,
    List.singleton_append, List.insertionSort, List.orderedInsert, if_pos hA]
  have hfold : mergeAll w [(⟨t1, s1, {Source.audio}, "audio"⟩ : Event),
      ⟨t2, s2, {Source.comment}, "comment"⟩] =
      [⟨t1, s1, {Source.audio}, "audio"⟩, ⟨t2, s2, {Source.comment}, "comment"⟩] := by
    rw [mergeAll, List.foldl_cons, List.foldl_cons]
    show (mergeStep w (mergeStep w [] _) _).reverse = _
    rw [show mergeStep w ([] : List Event) (⟨t1, s1, {Source.audio}, "audio"⟩ : Event) =
      [⟨t1, s1, {Source.audio}, "audio"⟩] from rfl, hstep]
    rfl
  rw [hfold]
  exact List.perm_insertionSort scoreGE _

/-- C1: with merge_window = 30, events at t=0 (score 1.0) and t=29.9
(score 2.0) merge into one event of score 3.0 (at the mean timestamp),
while events at t=0 and t=30.1 stay separate; a chain 0, 20, 35 shows that
absorption compares against the running-mean timestamp (35 is absorbed
because it is within 30 of the running mean 10, though not of 0); in
general one audio and one comment event merge exactly when their gap is
strictly below the window, adding scores, unioning sources and averaging
timestamps, and one step of the merge loop absorbs exactly when the new
event is within the window of the current merged event's running-mean
timestamp. -/
theorem merge_window_boundary_spec :
    (merge_events [⟨0, some 1, none⟩] [⟨299/10, some 2, none⟩] 30 =
        [⟨299/20, 3, {Source.audio, Source.comment}, "audio"⟩]) ∧
    (merge_events [⟨0, some 1, none⟩] [⟨301/10, some 2, none⟩] 30 =
        [⟨301/10, 2, {Source.comment}, "comment"⟩, ⟨0, 1, {Source.audio}, "audio"⟩]) ∧
    (merge_events [⟨0, some 1, none⟩, ⟨20, some 1, none⟩, ⟨35, some 1, none⟩] [] 30 =
        [⟨45/2, 3, {Source.audio}, "audio"⟩]) ∧
    (∀ w t1 t2 s1 s2 : ℚ, t1 ≤ t2 →
      (t2 - t1 < w →
        merge_events [⟨t1, some s1, none⟩] [⟨t2, some s2, none⟩] w =
          [⟨(t1 + t2) / 2, s1 + s2, {Source.audio, Source.comment}, "audio"⟩]) ∧
      (w ≤ t2 - t1 →
        (merge_events [⟨t1, some s1, none⟩] [⟨t2, some s2, none⟩] w).Perm
          [⟨t1, s1, {Source.audio}, "audio"⟩, ⟨t2, s2, {Source.comment}, "comment"⟩])) ∧
    (∀ (w : ℚ) (last e : Event) (acc : List Event),
      (e.time - last.time < w → mergeStep w (last :: acc) e = absorb last e :: acc) ∧
      (w ≤ e.time - last.time → mergeStep w (last :: acc) e = e :: last :: acc)) := by
  refine ⟨?_, ?_, ?_, ?_, ?_⟩
  · norm_num [merge_events, mergeAll, mergeStep, tagEvent, absorb, timeLE, scoreGE]
    decide
  · norm_num [merge_events, mergeAll, mergeStep, tagEvent, absorb, timeLE, scoreGE]
  · norm_num [merge_events, mergeAll, mergeStep, tagEvent, absorb, timeLE, scoreGE]
  · intro w t1 t2 s1 s2 h12
    exact ⟨merge_two_absorb w t1 t2 s1 s2 h12, merge_two_separate w t1 t2 s1 s2 h12⟩
  · intro w last e acc
    exact ⟨mergeStep_absorb w last e acc, mergeStep_new w last e acc⟩

/-- Witness for C1: the general two-event parts at w=30, t=0 and t=10. -/
theorem merge_window_boundary_spec_witness :
    merge_events [⟨(0:ℚ), some 1, none⟩] [⟨10, some 1, none⟩] 30 =
      [⟨(0 + 10) / 2, 1 + 1, {Source.audio, Source.comment}, "audio"⟩] :=
  (merge_window_boundary_spec.2.2.2.1 30 0 10 1 1 (by norm_num)).1 (by norm_num)

/-- C2 counterexample: merging the empty comment list with the two-element
audio list at t=0 and t=10 (scores 1.0 each) does not preserve the
timestamp/score multiset: the two audio events are merged with each other
into a single event at t=5 with score 2.0. -/
theorem merge_empty_comment_counterexample :
    ((merge_events [⟨0, some 1, none⟩, ⟨10, some 1, none⟩] [] 30).map
        (fun e => (e.time, e.score)) = [((5 : ℚ), (2 : ℚ))]) ∧
    ¬ ((merge_events [⟨0, some 1, none⟩, ⟨10, some 1, none⟩] [] 30).map
        (fun e => (e.time, e.score))).Perm
        (([⟨0, some 1, none⟩, ⟨10, some 1, none⟩] : List RawEvent).map
          (fun e => (e.time, e.score.getD 1))) := by
  have h : (merge_events [⟨0, some 1, none⟩, ⟨10, some 1, none⟩] [] 30).map
      (fun e => (e.time, e.score)) = [((5 : ℚ), (2 : ℚ))] := by
    norm_num [merge_events, mergeAll, mergeStep, tagEvent, absorb, timeLE, scoreGE]
  refine ⟨h, fun hp => ?_⟩
  rw [h] at hp
  have := hp.length_eq
  simp at this

/-- C2 amended: merging an empty comment-event list with an audio-event
list yields exactly the audio list's timestamps and scores (reordered only
by descending score) provided consecutive time-sorted audio events are at
least merge_window apart; otherwise nearby audio events merge with each
other (see the counterexample). -/
theorem merge_empty_comment_spread_spec :
    ∀ (A : List RawEvent) (w : ℚ),
      (List.insertionSort timeLE (A.map (tagEvent Source.audio "audio"))).Chain'
          (fun a b => w ≤ b.time - a.time) →
      ((merge_events A [] w).map (fun e => (e.time, e.score))).Perm
          (A.map (fun e => (e.time, e.score.getD 1))) ∧
      (merge_events A [] w).Sorted scoreGE := by
  intro A w h
  constructor
  · have h1 : merge_events A [] w =
        List.insertionSort scoreGE
          (List.insertionSort timeLE (A.map (tagEvent Source.audio "audio"))) := by
      simp only [merge_events, List.map_nil, List.append_nil]
      rw [mergeAll_of_spread w _ h]
    rw [h1]
    have p1 : (List.insertionSort scoreGE
        (List.insertionSort timeLE (A.map (tagEvent Source.audio "audio")))).Perm
        (A.map (tagEvent Source.audio "audio")) :=
      (List.perm_insertionSort scoreGE _).trans (List.perm_insertionSort timeLE _)
    have p2 := p1.map (fun e => (e.time, e.score))
    rw [List.map_map] at p2
    exact p2
  · simp only [merge_events, List.map_nil, List.append_nil]
    exact List.sorted_insertionSort scoreGE _

/-- Witness for C2 amended: audio events at t=0 and t=40 with window 30. -/
theorem merge_empty_comment_spread_spec_witness :
    ((merge_events [⟨(0:ℚ), some 1, none⟩, ⟨40, some 2, none⟩] [] 30).map
        (fun e => (e.time, e.score))).Perm
      (([⟨0, some 1, none⟩, ⟨40, some 2, none⟩] : List RawEvent).map
        (fun e => (e.time, e.score.getD 1))) := by
  refine (merge_empty_comment_spread_spec [⟨0, some 1, none⟩, ⟨40, some 2, none⟩] 30 ?_).1
  norm_num [List.insertionSort, List.orderedInsert, tagEvent, timeLE, List.chain'_cons]

/-- C4 counterexample: in a world whose initial ffmpeg audio extraction
fails (everything else healthy, comment log present and well-formed), the
whole run aborts with the CalledProcessError instead of proceeding with
zero audio events. -/
theorem audio_failure_counterexample :
    extract_highlights wAudioFail "./highlights" (some "comments.json") 5 60 =
      Except.error (PyError.calledProcessError "ffmpeg") := rfl

/-- C4 amended: a failure of the audio extraction step is fatal to the
whole extract_highlights run (the CalledProcessError propagates uncaught,
and main.py exits nonzero); only failures inside the detection sub-passes
(no silencedetect matches, no loudness summary) degrade to an empty audio
event list. -/
theorem audio_failure_spec :
    (∀ (w : World) (output_dir : String) (comment_log : Option String)
        (n : ℕ) (cd : ℚ),
        w.extractAudioOk = false →
        extract_highlights w output_dir comment_log n cd =
          Except.error (PyError.calledProcessError "ffmpeg")) ∧
    (∀ w : World, w.extractAudioOk = true → w.silenceEndTimes = [] →
        w.loudness = none → analyze_audio w = Except.ok []) := by
  constructor
  · intro w output_dir comment_log n cd h
    simp [extract_highlights, analyze_audio, extract_audio, h]
  · intro w h1 h2 h3
    simp [analyze_audio, extract_audio, h1, detect_volume_peaks, h2,
      detect_loud_segments, h3, List.insertionSort]

/-- Witness for C4 amended, on the two fixture worlds. -/
theorem audio_failure_spec_witness :
    (extract_highlights wAudioFail "out" none 5 60 =
        Except.error (PyError.calledProcessError "ffmpeg")) ∧
    analyze_audio wBadSuffix = Except.ok [] :=
  ⟨audio_failure_spec.1 wAudioFail "out" none 5 60 rfl,
   audio_failure_spec.2 wBadSuffix rfl rfl rfl⟩

/-- C5: if of 5 requested clips exactly the cut of clip 2 (enumeration
index 1) exits nonzero, generate_clips returns the other four clips, in
order, as a length-4 list; no exception and no empty list. -/
theorem clip_failure_isolation_spec :
    ∀ (w : World) (e0 e1 e2 e3 e4 : Event) (cd : ℚ),
      w.probeOk = true → w.cutOk = (fun i => decide (i ≠ 1)) →
      generate_clips w [e0, e1, e2, e3, e4] 5 cd 5 =
        Except.ok [clipFor w.videoDuration cd 5 0 e0, clipFor w.videoDuration cd 5 2 e2,
          clipFor w.videoDuration cd 5 3 e3, clipFor w.videoDuration cd 5 4 e4] ∧
      [clipFor w.videoDuration cd 5 0 e0, clipFor w.videoDuration cd 5 2 e2,
          clipFor w.videoDuration cd 5 3 e3, clipFor w.videoDuration cd 5 4 e4].length = 4 := by
  intro w e0 e1 e2 e3 e4 cd hprobe hcut
  refine ⟨?_, rfl⟩
  simp [generate_clips, get_video_duration, hprobe, clipWindows, hcut,
    List.enum, List.enumFrom, List.take]

/-- Witness for C5 on the fixture world and events. -/
theorem clip_failure_isolation_spec_witness :
    generate_clips wClip2Fails ev5 5 60 5 =
      Except.ok [clipFor wClip2Fails.videoDuration 60 5 0 ⟨10, 5, {Source.audio}, "audio"⟩,
        clipFor wClip2Fails.videoDuration 60 5 2 ⟨90, 3, {Source.comment}, "comment"⟩,
        clipFor wClip2Fails.videoDuration 60 5 3 ⟨130, 2, {Source.audio}, "audio"⟩,
        clipFor wClip2Fails.videoDuration 60 5 4 ⟨170, 1, {Source.comment}, "comment"⟩] :=
  (clip_failure_isolation_spec wClip2Fails _ _ _ _ _ 60 rfl rfl).1

/-- C6: every clip produced by the clip loop satisfies start ≥ 0 and
start + duration ≤ media duration (unconditionally, by the max/min
clamping); concretely, for a 100 s media file an event at t=95 with
clip_duration=60 and padding=5 yields start=60 and duration=40. -/
theorem clip_bounds_spec :
    (∀ (video_duration : ℚ) (events : List Event) (num_clips : ℕ)
        (clip_duration padding : ℚ) (cutOk : ℕ → Bool) (c : Clip),
        c ∈ clipWindows video_duration events num_clips clip_duration padding cutOk →
        0 ≤ c.start ∧ c.start + c.duration ≤ video_duration) ∧
    (∀ (i : ℕ) (e : Event), e.time = 95 → clipFor 100 60 5 i e = ⟨i + 1, 60, 40⟩) := by
  constructor
  · intro video_duration events num_clips clip_duration padding cutOk c hc
    obtain ⟨p, _, hp⟩ := List.mem_filterMap.mp hc
    by_cases hok : cutOk p.1
    · rw [if_pos hok, Option.some_inj] at hp
      subst hp
      constructor
      · exact le_max_left 0 _
      · have hmin : min (clip_duration + padding * 2)
            (video_duration - clipStart clip_duration padding p.2.time) ≤
            video_duration - clipStart clip_duration padding p.2.time := min_le_right _ _
        simp only [clipFor]
        linarith
    · rw [if_neg hok] at hp
      exact absurd hp (by simp)
  · intro i e he
    simp only [clipFor, he]
    norm_num [clipStart]

/-- Witness for C6: the single clip of a 100 s video for an event at t=95. -/
theorem clip_bounds_spec_witness :
    0 ≤ (clipFor 100 60 5 0 ⟨95, 1, {Source.audio}, "audio"⟩).start ∧
    (clipFor 100 60 5 0 ⟨95, 1, {Source.audio}, "audio"⟩).start +
      (clipFor 100 60 5 0 ⟨95, 1, {Source.audio}, "audio"⟩).duration ≤ 100 := by
  refine clip_bounds_spec.1 100 [⟨95, 1, {Source.audio}, "audio"⟩] 1 60 5 (fun _ => true)
    (clipFor 100 60 5 0 ⟨95, 1, {Source.audio}, "audio"⟩) ?_
  simp [clipWindows, List.enum, List.enumFrom, List.take]

/-- C7: a comment log whose lower-cased extension is neither .json nor
.csv makes load_comment_log raise ValueError("Unsupported format: ...");
when the log path is passed and the file exists this aborts the whole
extract_highlights run; .json and .csv suffixes never produce this error. -/
theorem comment_format_error_spec :
    ∀ (w : World) (s output_dir : String) (num_clips : ℕ) (clip_duration : ℚ),
      pyLower w.commentLogSuffix ≠ ".json" → pyLower w.commentLogSuffix ≠ ".csv" →
      w.extractAudioOk = true → w.commentLogExists = true → s ≠ "" →
      (load_comment_log w =
          Except.error (PyError.valueError ("Unsupported format: " ++ w.commentLogSuffix))) ∧
      (extract_highlights w output_dir (some s) num_clips clip_duration =
          Except.error (PyError.valueError ("Unsupported format: " ++ w.commentLogSuffix))) ∧
      (∀ w' : World,
        (pyLower w'.commentLogSuffix = ".json" ∨ pyLower w'.commentLogSuffix = ".csv") →
        load_comment_log w' = Except.ok w'.commentData) := by
  intro w s output_dir num_clips clip_duration h1 h2 haudio hex hs
  have hload : load_comment_log w =
      Except.error (PyError.valueError ("Unsupported format: " ++ w.commentLogSuffix)) := by
    simp [load_comment_log, h1, h2]
  refine ⟨hload, ?_, ?_⟩
  · simp [extract_highlights, analyze_audio, extract_audio, haudio, hs, hex,
      analyze_comments, hload]
  · intro w' h
    rcases h with h | h
    · simp [load_comment_log, h]
    · have : pyLower w'.commentLogSuffix ≠ ".json" := by
        rw [h]; decide
      simp [load_comment_log, h, this]

/-- Witness for C7 on the .txt fixture world. -/
theorem comment_format_error_spec_witness :
    load_comment_log wBadSuffix =
      Except.error (PyError.valueError ("Unsupported format: " ++ ".txt")) := by
  have h := comment_format_error_spec wBadSuffix "c.txt" "out" 5 60 (by decide) (by decide)
    rfl rfl (by decide)
  exact h.1

/-- Membership characterization of detect_comment_spikes: a spike is
emitted exactly for the buckets whose count strictly exceeds
avg * threshold_ratio. -/
theorem spike_mem_iff (comments : List CommentRecord) (window_sec threshold_ratio : ℚ)
    (s : Spike) :
    s ∈ detect_comment_spikes comments window_sec threshold_ratio ↔
      comments ≠ [] ∧ ∃ b ∈ bucketKeys window_sec comments,
        bucketAvg window_sec comments * threshold_ratio <
            (bucketCount window_sec comments b : ℚ) ∧
        s = mkSpike window_sec (bucketAvg window_sec comments)
            (bucketCount window_sec comments b) b := by
  unfold detect_comment_spikes
  by_cases h0 : comments = []
  · simp [h0]
  · rw [if_neg h0]
    by_cases hk : bucketKeys window_sec comments = []
    · simp [hk, h0]
    · rw [if_neg hk]
      simp only [List.mem_insertionSort, List.mem_filterMap, h0, ne_eq,
        not_false_eq_true, true_and]
      constructor
      · rintro ⟨b, hb, hsome⟩
        by_cases hc : bucketAvg window_sec comments * threshold_ratio <
            (bucketCount window_sec comments b : ℚ)
        · rw [if_pos hc, Option.some_inj] at hsome
          exact ⟨b, hb, hc, hsome.symm⟩
        · rw [if_neg hc] at hsome
          cases hsome
      · rintro ⟨b, hb, hc, rfl⟩
        exact ⟨b, hb, by rw [if_pos hc]⟩

/-- C8: a comment_spike event for bucket b is produced exactly when the
bucket's comment count strictly exceeds mean * threshold_ratio, with
score count/mean and timestamp at the bucket midpoint.  Concretely, with
ten 1-comment buckets and one 5-comment bucket (mean 15/11) and
threshold_ratio = 2.0, exactly the 5-comment bucket is flagged (score
11/3 at t=315); adding a 2-comment bucket (mean 17/12) still flags only
the 5-comment bucket: the 2-comment bucket is not flagged. -/
theorem spike_threshold_spec :
    (∀ (comments : List CommentRecord) (window_sec threshold_ratio : ℚ) (s : Spike),
      s ∈ detect_comment_spikes comments window_sec threshold_ratio ↔
        comments ≠ [] ∧ ∃ b ∈ bucketKeys window_sec comments,
          bucketAvg window_sec comments * threshold_ratio <
              (bucketCount window_sec comments b : ℚ) ∧
          s = mkSpike window_sec (bucketAvg window_sec comments)
              (bucketCount window_sec comments b) b) ∧
    detect_comment_spikes scenarioA 30 2 =
      [⟨315, "comment_spike", 5, 15/11, 11/3⟩] ∧
    detect_comment_spikes scenarioB 30 2 =
      [⟨315, "comment_spike", 5, 17/12, 60/17⟩] := by
  refine ⟨spike_mem_iff, ?_, ?_⟩
  · norm_num [detect_comment_spikes, bucketAvg, bucketKeys, bucketCount, scenarioA,
      bucketOf, insertKey, mkSpike, List.foldl, List.filterMap, List.filter,
      List.insertionSort, List.orderedInsert]
    rw [if_neg (List.cons_ne_nil _ _), if_neg (List.cons_ne_nil _ _)]
  · norm_num [detect_comment_spikes, bucketAvg, bucketKeys, bucketCount, scenarioB,
      scenarioA, bucketOf, insertKey, mkSpike, List.foldl, List.filterMap, List.filter,
      List.insertionSort, List.orderedInsert]
    rw [if_neg (List.cons_ne_nil _ _), if_neg (List.cons_ne_nil _ _)]

/-- Sorting by timeLE and mapping to timestamps commute with Sorted. -/
theorem sorted_map_time {l : List Event} (h : l.Sorted timeLE) :
    (l.map Event.time).Sorted (· ≤ ·) :=
  List.pairwise_map.mpr h

/-- Tagging does not change timestamps. -/
theorem map_time_tag (src : Source) (dk : String) (l : List RawEvent) :
    ((l.map (tagEvent src dk)).map Event.time) = l.map RawEvent.time := by
  rw [List.map_map]; rfl

/-- Two permuted lists with equal, duplicate-free timestamp sequences are
equal. -/
theorem eq_of_perm_of_map_time_nodup :
    ∀ (l₁ l₂ : List Event), l₁.Perm l₂ → l₁.map Event.time = l₂.map Event.time →
      (l₁.map Event.time).Nodup → l₁ = l₂ := by
  intro l₁
  induction l₁ with
  | nil => intro l₂ h _ _; exact h.nil_eq
  | cons a t ih =>
      intro l₂ h hmap hnd
      cases l₂ with
      | nil =>
          exact absurd (h.subset (List.mem_cons_self a t)) (by simp)
      | cons b u =>
          have h1 : a.time = b.time ∧ t.map Event.time = u.map Event.time := by
            simpa using hmap
          have hnd' : a.time ∉ t.map Event.time ∧ (t.map Event.time).Nodup := by
            simpa using hnd
          have hane : a = b := by
            by_contra hne
            have ha : a ∈ b :: u := h.subset (List.mem_cons_self a t)
            have ha' : a ∈ u := by
              rcases List.mem_cons.mp ha with h' | h'
              · exact absurd h' hne
              · exact h'
            have hmem : a.time ∈ u.map Event.time := List.mem_map_of_mem _ ha'
            rw [← h1.2] at hmem
            exact hnd'.1 hmem
          subst hane
          rw [ih u h.cons_inv h1.2 hnd'.2]

/-- C10: merge_events re-sorts the tagged concatenation of its two inputs
ascending by timestamp before the single-pass walk, so when all event
timestamps are distinct its output is unchanged by permuting either input
list (in particular by the comment detector's score-descending order). -/
theorem merge_permutation_spec :
    ∀ (A A' B B' : List RawEvent) (w : ℚ),
      A'.Perm A → B'.Perm B → (A.map RawEvent.time ++ B.map RawEvent.time).Nodup →
      merge_events A' B' w = merge_events A B w := by
  intro A A' B B' w hA hB hnd
  simp only [merge_events]
  have hptag : (A'.map (tagEvent Source.audio "audio") ++
      B'.map (tagEvent Source.comment "comment")).Perm
      (A.map (tagEvent Source.audio "audio") ++
        B.map (tagEvent Source.comment "comment")) :=
    (hA.map _).append (hB.map _)
  have hp : (List.insertionSort timeLE (A'.map (tagEvent Source.audio "audio") ++
      B'.map (tagEvent Source.comment "comment"))).Perm
      (List.insertionSort timeLE (A.map (tagEvent Source.audio "audio") ++
        B.map (tagEvent Source.comment "comment"))) :=
    (List.perm_insertionSort _ _).trans (hptag.trans (List.perm_insertionSort _ _).symm)
  have htimes : ((A.map (tagEvent Source.audio "audio") ++
      B.map (tagEvent Source.comment "comment")).map Event.time) =
      A.map RawEvent.time ++ B.map RawEvent.time := by
    rw [List.map_append, map_time_tag, map_time_tag]
  have hnd₂ : ((List.insertionSort timeLE (A.map (tagEvent Source.audio "audio") ++
      B.map (tagEvent Source.comment "comment"))).map Event.time).Nodup := by
    apply (List.Perm.nodup_iff ((List.perm_insertionSort timeLE _).map Event.time)).mpr
    rw [htimes]
    exact hnd
  have hmap : ((List.insertionSort timeLE (A'.map (tagEvent Source.audio "audio") ++
      B'.map (tagEvent Source.comment "comment"))).map Event.time) =
      ((List.insertionSort timeLE (A.map (tagEvent Source.audio "audio") ++
        B.map (tagEvent Source.comment "comment"))).map Event.time) :=
    List.eq_of_perm_of_sorted (hp.map _)
      (sorted_map_time (List.sorted_insertionSort timeLE _))
      (sorted_map_time (List.sorted_insertionSort timeLE _))
  rw [eq_of_perm_of_map_time_nodup _ _ hp hmap (by rw [hmap]; exact hnd₂)]

/-- Witness for C10: permuting the audio list (distinct timestamps 0, 40,
100) does not change the merge output. -/
theorem merge_permutation_spec_witness :
    merge_events [⟨40, some 2, none⟩, ⟨0, some 1, none⟩] [⟨100, some 1, none⟩] 30 =
      merge_events [⟨0, some 1, none⟩, ⟨40, some 2, none⟩] [⟨100, some 1, none⟩] 30 :=
  merge_permutation_spec [⟨0, some 1, none⟩, ⟨40, some 2, none⟩]
    [⟨40, some 2, none⟩, ⟨0, some 1, none⟩]
    [⟨100, some 1, none⟩] [⟨100, some 1, none⟩] 30
    (List.Perm.swap _ _ _) (List.Perm.refl _) (by decide)

/-- The merge loop keeps its (reversed) accumulator strictly descending in
time: absorption moves the running-mean timestamp forward but never past
the next event, and a new cluster starts a full window later. -/
theorem foldl_mergeStep_desc (w : ℚ) (hw : 0 < w) :
    ∀ (l : List Event) (acc : List Event) (c : ℚ),
      l.Pairwise timeLE → (∀ e ∈ l, c ≤ e.time) →
      acc.Chain' (fun a b => b.time < a.time) →
      (∀ h, acc.head? = some h → h.time ≤ c) →
      (l.foldl (mergeStep w) acc).Chain' (fun a b => b.time < a.time) := by
  intro l
  induction l with
  | nil => intro acc c _ _ hacc _; simpa using hacc
  | cons e l ih =>
      intro acc c hp hc hacc hhead
      have he : c ≤ e.time := hc e (List.mem_cons_self e l)
      have hl : ∀ x ∈ l, e.time ≤ x.time := fun x hx => (List.pairwise_cons.mp hp).1 x hx
      rw [List.foldl_cons]
      refine ih (mergeStep w acc e) e.time (List.pairwise_cons.mp hp).2 hl ?_ ?_
      · cases acc with
        | nil => simp [mergeStep]
        | cons last rest =>
            have hlast : last.time ≤ c := hhead last rfl
            by_cases habs : e.time - last.time < w
            · rw [mergeStep_absorb w last e rest habs]
              rw [List.chain'_cons'] at hacc ⊢
              refine ⟨?_, hacc.2⟩
              intro y hy
              have hy' := hacc.1 y hy
              simp only [absorb]
              simp only at hy' ⊢
              linarith
            · rw [mergeStep_new w last e rest (not_lt.mp habs)]
              rw [List.chain'_cons']
              refine ⟨?_, hacc⟩
              intro y hy
              have hyl : last = y := by simpa using hy
              subst hyl
              have hw2 : w ≤ e.time - last.time := not_lt.mp habs
              show last.time < e.time
              linarith
      · intro h hh
        cases acc with
        | nil =>
            have hhe : e = h := by simpa [mergeStep] using hh
            subst hhe
            exact le_refl _
        | cons last rest =>
            have hlast : last.time ≤ c := hhead last rfl
            by_cases habs : e.time - last.time < w
            · rw [mergeStep_absorb w last e rest habs] at hh
              have hha : absorb last e = h := by simpa using hh
              subst hha
              simp only [absorb]
              linarith
            · rw [mergeStep_new w last e rest (not_lt.mp habs)] at hh
              have hhe : e = h := by simpa using hh
              subst hhe
              exact le_refl _

/-- On a time-sorted input the merged clusters come out strictly ascending
in (running-mean) timestamp. -/
theorem mergeAll_pairwise_timeLT (w : ℚ) (hw : 0 < w) (l : List Event)
    (hl : l.Pairwise timeLE) : (mergeAll w l).Pairwise timeLT := by
  have hchain : (l.foldl (mergeStep w) []).Chain' (fun a b => b.time < a.time) := by
    cases l with
    | nil => simp
    | cons e r =>
        refine foldl_mergeStep_desc w hw (e :: r) [] e.time hl ?_ (by simp) (by simp)
        intro x hx
        rcases List.mem_cons.mp hx with h | h
        · exact le_of_eq (by rw [h])
        · exact (List.pairwise_cons.mp hl).1 x h
  rw [mergeAll]
  have hrev : (l.foldl (mergeStep w) []).reverse.Chain' timeLT := by
    rw [List.chain'_reverse]
    exact hchain
  exact List.chain'_iff_pairwise.mp hrev

/-- Inserting an event whose time precedes everything in a list that is
already in renderer order keeps renderer order. -/
theorem orderedInsert_scoreTime (a : Event) :
    ∀ (s : List Event), s.Pairwise scoreTimeOrder → (∀ x ∈ s, a.time < x.time) →
      (List.orderedInsert scoreGE a s).Pairwise scoreTimeOrder := by
  intro s
  induction s with
  | nil => intro _ _; simp
  | cons b s ih =>
      intro hp ht
      rw [List.orderedInsert]
      by_cases h : scoreGE a b
      · rw [if_pos h]
        refine List.pairwise_cons.mpr ⟨?_, hp⟩
        intro x hx
        have hsle : x.score ≤ a.score := by
          rcases List.mem_cons.mp hx with rfl | hx'
          · exact h
          · rcases (List.pairwise_cons.mp hp).1 x hx' with h' | h'
            · exact le_trans (le_of_lt h') h
            · exact le_trans (le_of_eq h'.1) h
        rcases lt_or_eq_of_le hsle with h' | h'
        · exact Or.inl h'
        · exact Or.inr ⟨h', ht x hx⟩
      · rw [if_neg h]
        have hba : a.score < b.score := not_le.mp h
        refine List.pairwise_cons.mpr ⟨?_, ih (List.pairwise_cons.mp hp).2
          (fun x hx => ht x (List.mem_cons_of_mem b hx))⟩
        intro y hy
        rcases (List.mem_orderedInsert scoreGE).mp hy with rfl | hy'
        · exact Or.inl hba
        · exact (List.pairwise_cons.mp hp).1 y hy'

/-- The stable descending score sort of a strictly time-ascending list is
in renderer order: descending score, ties broken by ascending time. -/
theorem insertionSort_scoreTime :
    ∀ (l : List Event), l.Pairwise timeLT →
      (List.insertionSort scoreGE l).Pairwise scoreTimeOrder := by
  intro l
  induction l with
  | nil => intro _; simp
  | cons a t ih =>
      intro hp
      rw [List.insertionSort]
      apply orderedInsert_scoreTime
      · exact ih (List.pairwise_cons.mp hp).2
      · intro x hx
        exact (List.pairwise_cons.mp hp).1 x ((List.mem_insertionSort scoreGE).mp hx)

/-- C9: the event list fed to the clip renderer (the output of
merge_events, with any positive window, in particular the default 30 s) is
sorted descending by score, and events of equal score appear in their
temporal order with the earlier timestamp first, so top-N selection is
deterministic. -/
theorem renderer_sort_invariant_spec :
    ∀ (A B : List RawEvent) (w : ℚ), 0 < w →
      (merge_events A B w).Pairwise scoreTimeOrder := by
  intro A B w hw
  simp only [merge_events]
  apply insertionSort_scoreTime
  exact mergeAll_pairwise_timeLT w hw _ (List.sorted_insertionSort timeLE _)

/-- Witness for C9 at the default window. -/
theorem renderer_sort_invariant_spec_witness :
    (merge_events [⟨0, some 1, none⟩, ⟨100, some 2, none⟩] [⟨200, some 1, none⟩]
        30).Pairwise scoreTimeOrder :=
  renderer_sort_invariant_spec [⟨0, some 1, none⟩, ⟨100, some 2, none⟩]
    [⟨200, some 1, none⟩] 30 (by norm_num)

/-- Fusion: one merge step observed through proj is pstep. -/
theorem mergeStep_proj (w : ℚ) (s : List Event) (e : Event) :
    (mergeStep w s e).map proj = pstep w (s.map proj) (proj e) := by
  cases s with
  | nil => rfl
  | cons last rest =>
      by_cases hc : e.time - last.time < w
      · rw [mergeStep_absorb w last e rest hc]
        simp only [List.map_cons, pstep]
        rw [if_pos (show (proj e).1 - (proj last).1 < w from hc)]
        rfl
      · rw [mergeStep_new w last e rest (not_lt.mp hc)]
        simp only [List.map_cons, pstep]
        rw [if_neg (show ¬ ((proj e).1 - (proj last).1 < w) from hc)]

/-- Fusion of the whole merge walk with proj. -/
theorem foldl_mergeStep_proj (w : ℚ) :
    ∀ (l : List Event) (s : List Event),
      (l.foldl (mergeStep w) s).map proj = (l.map proj).foldl (pstep w) (s.map proj) := by
  intro l
  induction l with
  | nil => intro s; rfl
  | cons e r ih =>
      intro s
      rw [List.foldl_cons, List.map_cons, List.foldl_cons, ih, mergeStep_proj]

/-- Swapping two equal-time entries in the proj-level walk changes
nothing: both end up absorbed into the same cluster, and sums and running
means are order-independent for equal times. -/
theorem pstep_swap (w : ℚ) (hw : 0 < w) (q₁ q₂ : ℚ × ℚ) (h12 : q₁.1 = q₂.1)
    (s : List (ℚ × ℚ)) :
    pstep w (pstep w s q₁) q₂ = pstep w (pstep w s q₂) q₁ := by
  cases s with
  | nil =>
      show pstep w [q₁] q₂ = pstep w [q₂] q₁
      simp only [pstep]
      rw [if_pos (show q₂.1 - q₁.1 < w by rw [h12]; simpa using hw),
        if_pos (show q₁.1 - q₂.1 < w by rw [h12]; simpa using hw)]
      refine congrArg (fun p => [p]) (Prod.ext ?_ ?_)
      · show (q₁.1 + q₂.1) / 2 = (q₂.1 + q₁.1) / 2
        ring
      · show q₁.2 + q₂.2 = q₂.2 + q₁.2
        ring
  | cons last rest =>
      by_cases hc : q₁.1 - last.1 < w
      · have hc₂ : q₂.1 - last.1 < w := by rw [← h12]; exact hc
        simp only [pstep]
        rw [if_pos hc, if_pos hc₂]
        simp only [pstep]
        rw [if_pos (show q₂.1 - ((last.1 + q₁.1) / 2) < w by rw [← h12]; linarith),
          if_pos (show q₁.1 - ((last.1 + q₂.1) / 2) < w by rw [h12]; linarith)]
        refine congrArg (fun p => p :: rest) (Prod.ext ?_ ?_)
        · show ((last.1 + q₁.1) / 2 + q₂.1) / 2 = ((last.1 + q₂.1) / 2 + q₁.1) / 2
          rw [h12]
        · show last.2 + q₁.2 + q₂.2 = last.2 + q₂.2 + q₁.2
          ring
      · have hc₂ : ¬ (q₂.1 - last.1 < w) := by rw [← h12]; exact hc
        simp only [pstep]
        rw [if_neg hc, if_neg hc₂]
        simp only [pstep]
        rw [if_pos (show q₂.1 - q₁.1 < w by rw [h12]; simpa using hw),
          if_pos (show q₁.1 - q₂.1 < w by rw [h12]; simpa using hw)]
        refine congrArg (fun p => p :: last :: rest) (Prod.ext ?_ ?_)
        · show (q₁.1 + q₂.1) / 2 = (q₂.1 + q₁.1) / 2
          ring
        · show q₁.2 + q₂.2 = q₂.2 + q₁.2
          ring

/-- Processing a constant-time group in the proj-level walk is invariant
under permutation of the group. -/
theorem foldl_pstep_perm_const (w : ℚ) (hw : 0 < w) (t : ℚ) :
    ∀ {g₁ g₂ : List (ℚ × ℚ)}, g₁.Perm g₂ → (∀ q ∈ g₁, q.1 = t) →
      ∀ (s : List (ℚ × ℚ)), g₁.foldl (pstep w) s = g₂.foldl (pstep w) s := by
  intro g₁ g₂ hperm
  induction hperm with
  | nil => intro _ s; rfl
  | cons a hp ih =>
      intro ht s
      rw [List.foldl_cons, List.foldl_cons]
      exact ih (fun x hx => ht x (List.mem_cons_of_mem a hx)) _
  | swap a b l =>
      intro ht s
      rw [List.foldl_cons, List.foldl_cons, List.foldl_cons, List.foldl_cons]
      have hba : b.1 = a.1 := by
        rw [ht b (List.mem_cons_self b (a :: l)),
          ht a (List.mem_cons_of_mem b (List.mem_cons_self a l))]
      rw [pstep_swap w hw b a hba s]
  | trans h₁ h₂ ih₁ ih₂ =>
      intro ht s
      exact (ih₁ ht s).trans (ih₂ (fun x hx => ht x (h₁.mem_iff.mpr hx)) s)

/-- In a list sorted by first component and bounded below by t, the
entries with first component t are exactly the leading run. -/
theorem filter_fst_eq_takeWhile (t : ℚ) :
    ∀ (l : List (ℚ × ℚ)), l.Pairwise (fun p q => p.1 ≤ q.1) → (∀ q ∈ l, t ≤ q.1) →
      l.filter (fun q => decide (q.1 = t)) = l.takeWhile (fun q => decide (q.1 = t)) := by
  intro l
  induction l with
  | nil => intro _ _; rfl
  | cons e l ih =>
      intro hs hb
      by_cases he : e.1 = t
      · have ih' := ih (List.pairwise_cons.mp hs).2 (fun x hx => hb x (List.mem_cons_of_mem e hx))
        simp [List.filter_cons, List.takeWhile_cons, he, ih']
      · have ht : t < e.1 := lt_of_le_of_ne (hb e (List.mem_cons_self e l)) (Ne.symm he)
        have hnil : l.filter (fun q => decide (q.1 = t)) = [] := by
          apply List.filter_eq_nil_iff.mpr
          intro x hx
          have hex : e.1 ≤ x.1 := (List.pairwise_cons.mp hs).1 x hx
          simp only [decide_eq_true_eq]
          intro hxt
          rw [hxt] at hex
          exact absurd (lt_of_lt_of_le ht hex) (lt_irrefl t)
        simp [List.filter_cons, List.takeWhile_cons, he, hnil]

/-- Main invariance lemma for the proj-level merge walk: two sorted
permutations of the same timestamp/score multiset fold to the same state
(induction peels maximal equal-time groups, which never straddle a
cluster boundary). -/
theorem foldl_pstep_perm_sorted (w : ℚ) (hw : 0 < w) :
    ∀ (n : ℕ) (l₁ l₂ s : List (ℚ × ℚ)), l₁.length ≤ n → l₁.Perm l₂ →
      l₁.Pairwise (fun p q => p.1 ≤ q.1) → l₂.Pairwise (fun p q => p.1 ≤ q.1) →
      l₁.foldl (pstep w) s = l₂.foldl (pstep w) s := by
  intro n
  induction n with
  | zero =>
      intro l₁ l₂ s hlen hperm _ _
      have h1 : l₁ = [] := List.length_eq_zero.mp (Nat.le_zero.mp hlen)
      subst h1
      rw [← hperm.nil_eq]
  | succ n ih =>
      intro l₁ l₂ s hlen hperm hs₁ hs₂
      cases l₁ with
      | nil => rw [← hperm.nil_eq]
      | cons e r =>
          have hb₁ : ∀ x ∈ e :: r, e.1 ≤ x.1 := by
            intro x hx
            rcases List.mem_cons.mp hx with h | h
            · rw [h]
            · exact (List.pairwise_cons.mp hs₁).1 x h
          have hb₂ : ∀ x ∈ l₂, e.1 ≤ x.1 := fun x hx => hb₁ x (hperm.mem_iff.mpr hx)
          have hf₁ := filter_fst_eq_takeWhile e.1 (e :: r) hs₁ hb₁
          have hf₂ := filter_fst_eq_takeWhile e.1 l₂ hs₂ hb₂
          have hg : ((e :: r).takeWhile (fun q => decide (q.1 = e.1))).Perm
              (l₂.takeWhile (fun q => decide (q.1 = e.1))) := by
            rw [← hf₁, ← hf₂]
            exact hperm.filter _
          have hsplit₁ := List.takeWhile_append_dropWhile (fun q => decide (q.1 = e.1)) (e :: r)
          have hsplit₂ := List.takeWhile_append_dropWhile (fun q => decide (q.1 = e.1)) l₂
          have hd : ((e :: r).dropWhile (fun q => decide (q.1 = e.1))).Perm
              (l₂.dropWhile (fun q => decide (q.1 = e.1))) := by
            have h1 : (((e :: r).takeWhile (fun q => decide (q.1 = e.1))) ++
                ((e :: r).dropWhile (fun q => decide (q.1 = e.1)))).Perm
                ((l₂.takeWhile (fun q => decide (q.1 = e.1))) ++
                  (l₂.dropWhile (fun q => decide (q.1 = e.1)))) := by
              rw [hsplit₁, hsplit₂]
              exact hperm
            have h2 : (((e :: r).takeWhile (fun q => decide (q.1 = e.1))) :
                  Multiset (ℚ × ℚ)) +
                (((e :: r).dropWhile (fun q => decide (q.1 = e.1))) : Multiset (ℚ × ℚ)) =
                ((l₂.takeWhile (fun q => decide (q.1 = e.1))) : Multiset (ℚ × ℚ)) +
                ((l₂.dropWhile (fun q => decide (q.1 = e.1))) : Multiset (ℚ × ℚ)) := by
              simpa using Multiset.coe_eq_coe.mpr h1
            rw [Multiset.coe_eq_coe.mpr hg] at h2
            exact Multiset.coe_eq_coe.mp (add_left_cancel h2)
          have hsd₁ : ((e :: r).dropWhile (fun q => decide (q.1 = e.1))).Pairwise
              (fun p q => p.1 ≤ q.1) := hs₁.sublist (List.dropWhile_sublist _)
          have hsd₂ : (l₂.dropWhile (fun q => decide (q.1 = e.1))).Pairwise
              (fun p q => p.1 ≤ q.1) := hs₂.sublist (List.dropWhile_sublist _)
          have hlen' : ((e :: r).dropWhile (fun q => decide (q.1 = e.1))).length ≤ n := by
            have hpe : (fun q : ℚ × ℚ => decide (q.1 = e.1)) e = true := by simp
            rw [List.dropWhile_cons, if_pos hpe]
            have h1 : (r.dropWhile (fun q => decide (q.1 = e.1))).length ≤ r.length :=
              (List.dropWhile_sublist _).length_le
            have h2 : r.length + 1 ≤ n + 1 := by simpa using hlen
            omega
          have htg : ∀ x ∈ (e :: r).takeWhile (fun q => decide (q.1 = e.1)), x.1 = e.1 := by
            intro x hx
            have := List.mem_takeWhile_imp hx
            simpa using this
          calc (e :: r).foldl (pstep w) s
              = ((((e :: r).takeWhile (fun q => decide (q.1 = e.1))) ++
                  ((e :: r).dropWhile (fun q => decide (q.1 = e.1)))).foldl (pstep w) s) := by
                rw [hsplit₁]
            _ = (((e :: r).dropWhile (fun q => decide (q.1 = e.1))).foldl (pstep w)
                  (((e :: r).takeWhile (fun q => decide (q.1 = e.1))).foldl (pstep w) s)) := by
                rw [List.foldl_append]
            _ = ((l₂.dropWhile (fun q => decide (q.1 = e.1))).foldl (pstep w)
                  ((l₂.takeWhile (fun q => decide (q.1 = e.1))).foldl (pstep w) s)) := by
                rw [foldl_pstep_perm_const w hw e.1 hg htg s]
                exact ih _ _ _ hlen' hd hsd₁ hsd₂
            _ = ((l₂.takeWhile (fun q => decide (q.1 = e.1))) ++
                  (l₂.dropWhile (fun q => decide (q.1 = e.1)))).foldl (pstep w) s := by
                rw [List.foldl_append]
            _ = l₂.foldl (pstep w) s := by rw [hsplit₂]

/-- Ordered insertion only looks at scores, which proj preserves. -/
theorem orderedInsert_proj_congr :
    ∀ {s₁ s₂ : List Event} {a₁ a₂ : Event}, s₁.map proj = s₂.map proj → proj a₁ = proj a₂ →
      (List.orderedInsert scoreGE a₁ s₁).map proj =
        (List.orderedInsert scoreGE a₂ s₂).map proj := by
  intro s₁
  induction s₁ with
  | nil =>
      intro s₂ a₁ a₂ hs ha
      cases s₂ with
      | nil => simpa [List.orderedInsert] using ha
      | cons b t₂ => simp at hs
  | cons b₁ t₁ ih =>
      intro s₂ a₁ a₂ hs ha
      cases s₂ with
      | nil => simp at hs
      | cons b₂ t₂ =>
          have h1 : proj b₁ = proj b₂ ∧ t₁.map proj = t₂.map proj := by simpa using hs
          have has : a₁.score = a₂.score := congrArg (fun p => p.2) ha
          have hbs : b₁.score = b₂.score := congrArg (fun p => p.2) h1.1
          rw [List.orderedInsert, List.orderedInsert]
          by_cases hc : scoreGE a₁ b₁
          · rw [if_pos hc, if_pos (show scoreGE a₂ b₂ by
              show b₂.score ≤ a₂.score
              rw [← has, ← hbs]
              exact hc)]
            simp only [List.map_cons]
            rw [ha, h1.1, h1.2]
          · rw [if_neg hc, if_neg (show ¬ scoreGE a₂ b₂ by
              show ¬ b₂.score ≤ a₂.score
              rw [← has, ← hbs]
              exact hc)]
            simp only [List.map_cons]
            rw [h1.1, ih h1.2 ha]

/-- The final stable score sort respects observable equality. -/
theorem insertionSort_proj_congr :
    ∀ {m₁ m₂ : List Event}, m₁.map proj = m₂.map proj →
      (List.insertionSort scoreGE m₁).map proj =
        (List.insertionSort scoreGE m₂).map proj := by
  intro m₁
  induction m₁ with
  | nil =>
      intro m₂ h
      cases m₂ with
      | nil => rfl
      | cons b u => simp at h
  | cons a t ih =>
      intro m₂ h
      cases m₂ with
      | nil => simp at h
      | cons b u =>
          have h1 : proj a = proj b ∧ t.map proj = u.map proj := by simpa using h
          rw [List.insertionSort, List.insertionSort]
          exact orderedInsert_proj_congr (ih h1.2) h1.1

/-- Tagging does not change the proj view, whichever channel tags it. -/
theorem map_proj_tag (src : Source) (dk : String) (l : List RawEvent) :
    (l.map (tagEvent src dk)).map proj = l.map (fun e => (e.time, e.score.getD 1)) := by
  rw [List.map_map]
  rfl

/-- C3: for any positive window (in particular the default 30 s),
merge_events A B and merge_events B A produce the same sequence of merged
clusters: identical timestamps and identical per-cluster score totals,
even when equal timestamps make the internal accumulation order differ.
(The source sets are not compared: swapping the arguments swaps the
positional audio/comment channel labels, and the carried type tag records
only which member of a cluster came first.) -/
theorem merge_input_order_spec :
    ∀ (A B : List RawEvent) (w : ℚ), 0 < w →
      (merge_events A B w).map proj = (merge_events B A w).map proj := by
  intro A B w hw
  simp only [merge_events]
  apply insertionSort_proj_congr
  rw [mergeAll, mergeAll, List.map_reverse, List.map_reverse]
  congr 1
  rw [foldl_mergeStep_proj, foldl_mergeStep_proj]
  have hview₁ : ((A.map (tagEvent Source.audio "audio") ++
      B.map (tagEvent Source.comment "comment")).map proj) =
      A.map (fun e => (e.time, e.score.getD 1)) ++ B.map (fun e => (e.time, e.score.getD 1)) := by
    rw [List.map_append, map_proj_tag, map_proj_tag]
  have hview₂ : ((B.map (tagEvent Source.audio "audio") ++
      A.map (tagEvent Source.comment "comment")).map proj) =
      B.map (fun e => (e.time, e.score.getD 1)) ++ A.map (fun e => (e.time, e.score.getD 1)) := by
    rw [List.map_append, map_proj_tag, map_proj_tag]
  have hperm : (((List.insertionSort timeLE (A.map (tagEvent Source.audio "audio") ++
      B.map (tagEvent Source.comment "comment"))).map proj)).Perm
      ((List.insertionSort timeLE (B.map (tagEvent Source.audio "audio") ++
        A.map (tagEvent Source.comment "comment"))).map proj) := by
    have h1 : (((A.map (tagEvent Source.audio "audio") ++
        B.map (tagEvent Source.comment "comment")).map proj)).Perm
        ((B.map (tagEvent Source.audio "audio") ++
          A.map (tagEvent Source.comment "comment")).map proj) := by
      rw [hview₁, hview₂]
      exact List.perm_append_comm
    exact ((List.perm_insertionSort timeLE _).map proj).trans
      (h1.trans ((List.perm_insertionSort timeLE _).map proj).symm)
  refine foldl_pstep_perm_sorted w hw
    ((List.insertionSort timeLE (A.map (tagEvent Source.audio "audio") ++
      B.map (tagEvent Source.comment "comment"))).map proj).length _ _ _ (le_refl _)
    hperm ?_ ?_
  · exact List.pairwise_map.mpr (List.sorted_insertionSort timeLE _)
  · exact List.pairwise_map.mpr (List.sorted_insertionSort timeLE _)

/-- Witness for C3 at the default window, with a time tie between the two
channels. -/
theorem merge_input_order_spec_witness :
    (merge_events [⟨0, some 1, none⟩, ⟨10, some 2, none⟩] [⟨10, some 4, none⟩] 30).map proj =
      (merge_events [⟨10, some 4, none⟩] [⟨0, some 1, none⟩, ⟨10, some 2, none⟩] 30).map proj :=
  merge_input_order_spec [⟨0, some 1, none⟩, ⟨10, some 2, none⟩] [⟨10, some 4, none⟩] 30
    (by norm_num)

end VideoToolkit
